import Mathlib

/-!
# Verification of NoiseTools (src/NoiseTools/NoiseTools.py)

Shallow embedding of the numeric utility functions of the NoiseTools
library, together with proofs of the spec's claims about them.
Machine floats are embedded as exact real (or rational) numbers;
Python/numpy exceptions are embedded as `Except` errors.
-/

namespace NoiseTools

/-- Error taxonomy of the spec: `invalidInput` for mismatched lengths /
unknown resampling mode / degenerate spectra, `zeroDivision` for the
Python `ZeroDivisionError` raised by `1.*len(x)/N` when `N = 0`, and
`indexError` for the Python `IndexError` raised by `log(x[1])` when the
x-axis of `resample`'s `'log'` branch has a single element with
`x[0] <= 0`. -/
inductive Err where
  | invalidInput : Err
  | zeroDivision : Err
  | indexError : Err
deriving DecidableEq

/-! ## rotate (NoiseTools.py lines 292-299)

```python
def rotate(array, n=1):
    n = -n
    if len(array) == 0:
        return array
    n = n % len(array)      # Normalize n, using modulo. Works for negative n
    return concatenate((array[n:], array[:n]))
```
Python `%` on a positive modulus agrees with `Int.emod`. -/

def rotate {α : Type} (l : List α) (n : ℤ) : List α :=
  if l.length = 0 then l
  else
    l.drop ((-n) % (l.length : ℤ)).toNat ++ l.take ((-n) % (l.length : ℤ)).toNat

/-! ## unique and NumberOfBitsUsed (NoiseTools.py lines 368-380)

```python
def unique(data):
    copy = 1.*data
    copy.sort()
    return compress(diff(copy) > 0, copy[0:-1])

def NumberOfBitsUsed(data):
    return log(1.*len(unique(data)))/log(2.)
```
`compress(diff(copy) > 0, copy[0:-1])` keeps `copy[i]` (for `i < len-1`)
exactly when `copy[i+1] - copy[i] > 0`. -/

/-- `copy.sort()`: ascending sort of a copy of the data. -/
def pysort (l : List ℚ) : List ℚ :=
  l.insertionSort (· ≤ ·)

/-- `compress(diff(copy) > 0, copy[0:-1])`: keep each element of the list
(except the last) whose immediate successor is strictly larger. -/
def compressDiffPos : List ℚ → List ℚ
  | [] => []
  | [_] => []
  | a :: b :: rest =>
    if a < b then a :: compressDiffPos (b :: rest) else compressDiffPos (b :: rest)

def unique (data : List ℚ) : List ℚ :=
  compressDiffPos (pysort data)

noncomputable def NumberOfBitsUsed (data : List ℚ) : ℝ :=
  Real.log ((unique data).length : ℝ) / Real.log 2

/-! ## resamp and resample (NoiseTools.py lines 133-218)

```python
def resamp(x, N, type='lin'):
    if len(x) <= N:
        return x
    if type == 'lin':
        result = zeros(N).astype(x.dtype.char)
        dn = 1.*len(x)/N
        index = arange(1.*(N+1))*dn
        index = index.astype('i')
        index[-1] = len(x)
        for i in range(N):
            result[i] = average(x[index[i]:index[i+1]])
        return result
    if type == 'log':
        ...
    raise RuntimeError("Unknown type")
```
`astype('i')` truncates nonnegative floats toward zero, i.e. floors them.
`dn = 1.*len(x)/N` is pure-Python float-by-int division: it raises
`ZeroDivisionError` when `N = 0` (the numpy-scalar divisions appearing in
the `'log'` branch and in `dx = (x[-1]-x[0])/N` merely produce inf/nan
without raising).  The one raise of the `'log'` branch is in `resample`'s
x-axis part, `startlog = log(x[1])` taken when `x[0] <= 0`: it is an
`IndexError` when `len(x) < 2`, which in the reachable context
`len(x) = len(y) > N` forces `len(x) = 1` and `N = 0`; numpy `log` of a
non-positive value itself only warns and yields nan or -inf. -/

/-- `x[a:b]` for `0 ≤ a ≤ b`: Python slice of a list. -/
def slice (l : List ℝ) (a b : ℕ) : List ℝ :=
  (l.drop a).take (b - a)

/-- `average(l)`: numpy arithmetic mean, sum divided by length. -/
noncomputable def npAverage (l : List ℝ) : ℝ :=
  l.sum / (l.length : ℝ)

/-- The bin-edge array `index` of the `'lin'` branch:
`index[i] = int(i*dn)` with `dn = len/N`, and `index[-1]` overwritten
with `len`. -/
def linIndex (len N i : ℕ) : ℕ :=
  if i = N then len else ⌊(i * len : ℚ) / (N : ℚ)⌋₊

/-- `resulty` of the `'lin'` branch: bin `i` holds the average of the
source slice between consecutive bin edges. -/
noncomputable def linResultY (y : List ℝ) (N : ℕ) : List ℝ :=
  (List.range N).map fun i =>
    npAverage (slice y (linIndex y.length N i) (linIndex y.length N (i + 1)))

/-- `resultx` of the `'lin'` branch of `resample`:
`arange(1.*N)*dx + x[0] + dx/2` with `dx = (x[-1]-x[0])/N`. -/
noncomputable def linResultX (x : List ℝ) (N : ℕ) : List ℝ :=
  let dx : ℝ := (x.getLast?.getD 0 - x.headI) / (N : ℝ)
  (List.range N).map fun i => (i : ℝ) * dx + x.headI + dx / 2

/-- The bin-edge array `logindex` of the `'log'` branch:
`logindex[i] = int(exp(i*log(len+1)/N)) - 1`, with `logindex[-1]`
overwritten with `len`.  The exponential is at least 1, so `astype('i')`
truncation is flooring. -/
noncomputable def logIndex (len N i : ℕ) : ℕ :=
  if i = N then len
  else ⌊Real.exp ((i : ℝ) * Real.log ((len : ℝ) + 1) / (N : ℝ))⌋₊ - 1

/-- `resulty` of the `'log'` branch: average of the slice between
consecutive log-spaced edges, or the single sample at the lower edge when
the two edges coincide. -/
noncomputable def logResultY (y : List ℝ) (N : ℕ) : List ℝ :=
  (List.range N).map fun i =>
    if logIndex y.length N i ≠ logIndex y.length N (i + 1) then
      npAverage (slice y (logIndex y.length N i) (logIndex y.length N (i + 1)))
    else y.getD (logIndex y.length N i) 0

/-- `resultx` of the `'log'` branch of `resample`:
`exp(arange(1.*N)*dlog + startlog + dlog/2)` over the x-values' own log
range, anchored at `x[1]` when `x[0] <= 0`. -/
noncomputable def logResultX (x : List ℝ) (N : ℕ) : List ℝ :=
  let startlog : ℝ :=
    if x.headI > 0 then Real.log x.headI else Real.log (x.getD 1 0)
  let endlog : ℝ := Real.log (x.getLast?.getD 0)
  let dlog : ℝ := (endlog - startlog) / (N : ℝ)
  (List.range N).map fun i => Real.exp ((i : ℝ) * dlog + startlog + dlog / 2)

/-- `resamp(x, N, type)` (lines 185-218). -/
noncomputable def resamp (x : List ℝ) (N : ℕ) (type : String) : Except Err (List ℝ) :=
  if x.length ≤ N then .ok x
  else if type = "lin" then
    if N = 0 then .error .zeroDivision
    else .ok (linResultY x N)
  else if type = "log" then .ok (logResultY x N)
  else .error .invalidInput

/-- `resample(x, y, N, type)` (lines 133-182).  The original prints a
message and returns a sentinel (`[]`, or `arange([])` which itself
raises) on mismatched lengths / unknown type; per the spec these are
surfaced as `InvalidInput` failures.  The `'log'` branch raises
`IndexError` at `log(x[1])` when `x[0] <= 0` and `len(x) < 2` (the
y-part computed before it never raises). -/
noncomputable def resample (x y : List ℝ) (N : ℕ) (type : String) :
    Except Err (List ℝ × List ℝ) :=
  if x.length ≠ y.length then .error .invalidInput
  else if y.length ≤ N then .ok (x, y)
  else if type = "lin" then
    if N = 0 then .error .zeroDivision
    else .ok (linResultX x N, linResultY y N)
  else if type = "log" then
    if ¬ x.headI > 0 ∧ x.length < 2 then .error .indexError
    else .ok (logResultX x N, logResultY y N)
  else .error .invalidInput

/-! ## spectrum and ispectrum (NoiseTools.py lines 221-235)

```python
def spectrum(signal):
    # A_{n, FourierSeries} = 1/L*A_{n, FFT}
    return fft(signal)/len(signal)

def ispectrum(spec):
    return ifft(spec)*len(spec)
```
`fft`/`ifft` are numpy's discrete Fourier transform pair:
`fft(x)[k] = sum_j x[j] * exp(-2*pi*I*j*k/N)` and
`ifft(y)[j] = (1/N) * sum_k y[k] * exp(2*pi*I*j*k/N)`.
A length-`N` array is embedded as a function `Fin N → ℂ`. -/

noncomputable def fft (N : ℕ) (x : Fin N → ℂ) : Fin N → ℂ :=
  fun k => ∑ j : Fin N,
    x j * Complex.exp (-(2 * Real.pi * Complex.I) * (j : ℕ) * (k : ℕ) / (N : ℂ))

noncomputable def ifft (N : ℕ) (y : Fin N → ℂ) : Fin N → ℂ :=
  fun j => (∑ k : Fin N,
    y k * Complex.exp (2 * Real.pi * Complex.I * (j : ℕ) * (k : ℕ) / (N : ℂ))) / (N : ℂ)

noncomputable def spectrum (N : ℕ) (signal : Fin N → ℂ) : Fin N → ℂ :=
  fun k => fft N signal k / (N : ℂ)

noncomputable def ispectrum (N : ℕ) (spec : Fin N → ℂ) : Fin N → ℂ :=
  fun j => ifft N spec j * (N : ℂ)

/-! ## halfwidth (NoiseTools.py lines 302-307)

```python
def halfwidth(spec):
    maxpos = argmax(abs(spec[0:(len(spec)+1)/2]))
    x = min(maxpos, len(spec)/2-1-maxpos)
    if x == 0:
        print("halfwidth: Error: Maximum is at f=0")
    return 2**int(log(x)/log(2))
```
`argmax` returns the first index attaining the maximum.  For `x = 0` the
final line computes `int(log(0.)) = int(-inf)` and raises
`OverflowError`; for `x < 0` (reachable: odd `N` with the peak at the
last bin of the searched half) it computes `int(nan)` and raises
`ValueError`.  Both failures are embedded as errors; for `x >= 1`,
`2**int(log(x)/log(2))` is the largest power of two not exceeding `x`. -/

/-- numpy `argmax` on the magnitudes of a complex list: index of the
first element of maximal absolute value (state: items left to scan,
index of the next item, best index so far, best value so far). -/
noncomputable def argmaxAbsAux : List ℂ → ℕ → ℕ → ℝ → ℕ
  | [], _, best, _ => best
  | a :: rest, i, best, bestval =>
    if bestval < Complex.abs a then argmaxAbsAux rest (i + 1) i (Complex.abs a)
    else argmaxAbsAux rest (i + 1) best bestval

noncomputable def argmaxAbs (l : List ℂ) : ℕ :=
  match l with
  | [] => 0
  | a :: rest => argmaxAbsAux rest 1 0 (Complex.abs a)

/-- `maxpos = argmax(abs(spec[0:(len(spec)+1)/2]))`. -/
noncomputable def hwMaxpos (spec : List ℂ) : ℕ :=
  argmaxAbs (spec.take ((spec.length + 1) / 2))

/-- `x = min(maxpos, len(spec)/2-1-maxpos)` (a Python int, possibly
negative). -/
noncomputable def hwX (spec : List ℂ) : ℤ :=
  min (hwMaxpos spec : ℤ) ((spec.length : ℤ) / 2 - 1 - (hwMaxpos spec : ℤ))

/-- `halfwidth(spec)`: error when `x ≤ 0` (crash in the source, mandated
`InvalidInput` by the spec), else `2**int(log(x)/log(2))`. -/
noncomputable def halfwidth (spec : List ℂ) : Except Err ℕ :=
  if hwX spec ≤ 0 then .error .invalidInput
  else .ok (2 ^ (⌊Real.logb 2 ((hwX spec : ℤ) : ℝ)⌋.toNat))

/-! ## make_phase_continuous (NoiseTools.py lines 333-339)

```python
def make_phase_continuous(phi):
    for i in range(len(phi)-1):
        dphi = (phi[i+1]-phi[i]) % (2*pi)
        if dphi > pi:
            dphi -= 2*pi
        phi[i+1] = phi[i] + dphi
```
Python float `%` with a positive modulus `m` is `x - m*floor(x/m)`,
landing in `[0, m)`.  The in-place scan is embedded as a pure function
returning the mutated list. -/

/-- Python `x % (2*pi)`. -/
noncomputable def pmod2pi (x : ℝ) : ℝ :=
  x - 2 * Real.pi * ⌊x / (2 * Real.pi)⌋

/-- One unwrapping step: the `dphi` written at index `i+1`, relative to
the (already updated) value `prev` at index `i`. -/
noncomputable def unwrapStep (prev next : ℝ) : ℝ :=
  let dphi := pmod2pi (next - prev)
  if dphi > Real.pi then dphi - 2 * Real.pi else dphi

/-- The scan over indices `1..len-1`, carrying the updated previous
element. -/
noncomputable def mpcGo (prev : ℝ) : List ℝ → List ℝ
  | [] => []
  | b :: rest => (prev + unwrapStep prev b) :: mpcGo (prev + unwrapStep prev b) rest

noncomputable def make_phase_continuous (phi : List ℝ) : List ℝ :=
  match phi with
  | [] => []
  | a :: rest => a :: mpcGo a rest

/-! ## Helper lemmas -/

/-- On a nonempty list, `rotate` coincides with Mathlib's `List.rotate`
at the normalized shift `(-n) mod len`. -/
lemma rotate_eq_listRotate {α : Type} (l : List α) (n : ℤ) (h : l.length ≠ 0) :
    rotate l n = l.rotate ((-n) % (l.length : ℤ)).toNat := by
  have hL : 0 < (l.length : ℤ) := by exact_mod_cast Nat.pos_of_ne_zero h
  have h0 : 0 ≤ (-n) % (l.length : ℤ) := Int.emod_nonneg _ (ne_of_gt hL)
  have h1 : (-n) % (l.length : ℤ) < (l.length : ℤ) := Int.emod_lt_of_pos _ hL
  have hm : ((-n) % (l.length : ℤ)).toNat ≤ l.length := by omega
  rw [rotate, if_neg h, List.rotate_eq_drop_append_take hm]

lemma rotate_nil {α : Type} (n : ℤ) : rotate ([] : List α) n = [] := rfl

lemma rotate_zero' {α : Type} (l : List α) : rotate l 0 = l := by
  by_cases h : l.length = 0
  · rw [rotate, if_pos h]
  · rw [rotate_eq_listRotate l 0 h]
    simp

lemma rotate_rotate_neg {α : Type} (l : List α) (n : ℤ) :
    rotate (rotate l n) (-n) = l := by
  by_cases h : l.length = 0
  · rw [List.length_eq_zero] at h
    subst h
    rw [rotate_nil, rotate_nil]
  · have hL : 0 < (l.length : ℤ) := by exact_mod_cast Nat.pos_of_ne_zero h
    have hLne : (l.length : ℤ) ≠ 0 := ne_of_gt hL
    rw [rotate_eq_listRotate l n h]
    have hlen : (l.rotate ((-n) % (l.length : ℤ)).toNat).length = l.length :=
      List.length_rotate l _
    rw [rotate_eq_listRotate _ (-n) (by rw [hlen]; exact h), hlen, neg_neg,
      List.rotate_rotate, ← List.rotate_mod]
    have hsum : (((-n) % (l.length : ℤ)).toNat + (n % (l.length : ℤ)).toNat) % l.length = 0 := by
      have h0a : 0 ≤ (-n) % (l.length : ℤ) := Int.emod_nonneg _ hLne
      have h0b : 0 ≤ n % (l.length : ℤ) := Int.emod_nonneg _ hLne
      have hdvd : (l.length : ℤ) ∣ ((-n) % (l.length : ℤ) + n % (l.length : ℤ)) := by
        apply Int.dvd_of_emod_eq_zero
        rw [← Int.add_emod]
        simp
      have hdvd2 : l.length ∣ (((-n) % (l.length : ℤ)).toNat + (n % (l.length : ℤ)).toNat) := by
        have hcast : ((((-n) % (l.length : ℤ)).toNat + (n % (l.length : ℤ)).toNat : ℕ) : ℤ)
            = (-n) % (l.length : ℤ) + n % (l.length : ℤ) := by
          push_cast
          rw [Int.toNat_of_nonneg h0a, Int.toNat_of_nonneg h0b]
        exact_mod_cast hcast ▸ hdvd
      exact Nat.mod_eq_zero_of_dvd hdvd2
    rw [hsum, List.rotate_zero]

/-- On a list sorted in nondecreasing order, keeping the elements whose
successor is strictly larger yields exactly the distinct values minus the
largest one. -/
lemma compressDiffPos_sorted : ∀ (l : List ℚ), l.Sorted (· ≤ ·) →
    compressDiffPos l = l.dedup.dropLast
  | [], _ => rfl
  | [a], _ => by simp [compressDiffPos]
  | a :: b :: rest, h => by
    have hab : a ≤ b := (List.sorted_cons.mp h).1 b (List.mem_cons_self b rest)
    have htail : (b :: rest).Sorted (· ≤ ·) := (List.sorted_cons.mp h).2
    by_cases hlt : a < b
    · have hna : a ∉ b :: rest := by
        intro hmem
        rcases List.mem_cons.mp hmem with rfl | hmem'
        · exact lt_irrefl a hlt
        · exact absurd hlt (not_lt.mpr ((List.sorted_cons.mp htail).1 a hmem'))
      have hne : (b :: rest).dedup ≠ [] := by
        simp [List.dedup_eq_nil]
      rw [compressDiffPos, if_pos hlt, List.dedup_cons_of_not_mem hna,
        compressDiffPos_sorted (b :: rest) htail,
        List.dropLast_cons_of_ne_nil hne]
    · have heq : a = b := le_antisymm hab (not_lt.mp hlt)
      rw [compressDiffPos, if_neg hlt,
        List.dedup_cons_of_mem (heq ▸ List.mem_cons_self b rest),
        compressDiffPos_sorted (b :: rest) htail]

lemma mpcGo_length (l : List ℝ) : ∀ (prev : ℝ), (mpcGo prev l).length = l.length := by
  induction l with
  | nil => intro prev; rfl
  | cons b rest ih => intro prev; simp [mpcGo, ih]

/-! ## Claim theorems -/

/-- C5: for every sequence and every integer n (negative and
out-of-range included), `rotate (rotate seq n) (-n) = seq`,
`rotate seq 0 = seq`, and `rotate` of the empty sequence is empty. -/
theorem rotate_roundtrip_zero_nil {α : Type} (l : List α) (n : ℤ) :
    rotate (rotate l n) (-n) = l ∧ rotate l 0 = l ∧ rotate ([] : List α) n = [] :=
  ⟨rotate_rotate_neg l n, rotate_zero' l, rotate_nil n⟩

/-- C3: `unique [1,1,2,2,2,3] = [1,2]`, and in general `unique` returns
the distinct values of its input in ascending order with the member of
the final duplicate run (the global maximum) dropped. -/
theorem unique_spec :
    unique [1, 1, 2, 2, 2, 3] = [1, 2] ∧
    ∀ d : List ℚ, unique d = (pysort d).dedup.dropLast :=
  ⟨by decide, fun d => compressDiffPos_sorted (pysort d) (List.sorted_insertionSort _ d)⟩

/-- C2 (code bug): on data with exactly 4 distinct values, the code
returns `log 3 / log 2 ≈ 1.585`, not the documented `2.0`, because
`unique` drops the member of the final duplicate run. -/
theorem numberOfBitsUsed_four_levels_bug :
    NumberOfBitsUsed [0, 1, 2, 3] = Real.log 3 / Real.log 2 ∧
    NumberOfBitsUsed [0, 1, 2, 3] < 2 := by
  have hu : unique [0, 1, 2, 3] = [0, 1, 2] := by decide
  have hval : NumberOfBitsUsed [0, 1, 2, 3] = Real.log 3 / Real.log 2 := by
    rw [NumberOfBitsUsed, hu]
    norm_num
  refine ⟨hval, ?_⟩
  rw [hval, div_lt_iff₀ (Real.log_pos one_lt_two)]
  have h4 : Real.log 3 < Real.log (2 ^ 2) :=
    Real.log_lt_log (by norm_num) (by norm_num)
  rw [Real.log_pow] at h4
  push_cast at h4
  linarith

/-- C9: when the source length is at most the target length N, `resamp`
returns the source unchanged and `resample` returns the pair unchanged,
whatever the mode string. -/
theorem resamp_identity_boundary :
    (∀ (x : List ℝ) (N : ℕ) (type : String), x.length ≤ N →
      resamp x N type = .ok x) ∧
    (∀ (x y : List ℝ) (N : ℕ) (type : String), x.length = y.length →
      y.length ≤ N → resample x y N type = .ok (x, y)) := by
  constructor
  · intro x N ty h
    rw [resamp, if_pos h]
  · intro x y N ty hxy h
    rw [resample, if_neg (by rw [hxy]; exact fun hc => hc rfl), if_pos h]

/-- C9 witness: concrete instances, with an unrecognized mode string. -/
theorem resamp_identity_boundary_witness :
    (([(0 : ℝ), 1].length ≤ 2) ∧ resamp [(0 : ℝ), 1] 2 "bogus" = .ok [(0 : ℝ), 1]) ∧
    (([(0 : ℝ)].length = [(1 : ℝ)].length ∧ [(1 : ℝ)].length ≤ 3) ∧
      resample [(0 : ℝ)] [(1 : ℝ)] 3 "bogus" = .ok ([(0 : ℝ)], [(1 : ℝ)])) :=
  ⟨⟨by simp, resamp_identity_boundary.1 [0, 1] 2 "bogus" (by simp)⟩,
   ⟨⟨by simp, by simp⟩,
    resamp_identity_boundary.2 [0] [1] 3 "bogus" (by simp) (by simp)⟩⟩

/-- C10: `make_phase_continuous` only rewrites indices 1 and above: the
result has the length of the input and element 0 keeps its original
value. -/
theorem make_phase_continuous_frame (phi : List ℝ) :
    (make_phase_continuous phi).length = phi.length ∧
    ∀ d : ℝ, (make_phase_continuous phi).getD 0 d = phi.getD 0 d := by
  cases phi with
  | nil => exact ⟨rfl, fun d => rfl⟩
  | cons a rest =>
    constructor
    · simp [make_phase_continuous, mpcGo_length]
    · intro d
      rfl

lemma getD_map_range {f : ℕ → ℝ} {N i : ℕ} (h : i < N) :
    ((List.range N).map f).getD i 0 = f i := by
  rw [List.getD_eq_getElem?_getD, List.getElem?_map, List.getElem?_range h]
  rfl

/-- For `1 ≤ N` and `i ≤ N`, the forced final bin edge coincides with
the floor formula: `index[i] = floor(i*len/N)` throughout. -/
lemma linIndex_eq_floor (L N i : ℕ) (hN : 1 ≤ N) (hi : i ≤ N) :
    linIndex L N i = ⌊(i * L : ℚ) / (N : ℚ)⌋₊ := by
  have hN0 : (N : ℚ) ≠ 0 := Nat.cast_ne_zero.mpr (by omega)
  rw [linIndex]
  by_cases h : i = N
  · subst h
    rw [if_pos rfl, mul_comm, mul_div_assoc, div_self hN0, mul_one, Nat.floor_natCast]
  · rw [if_neg h]

/-- C4 (amended): for `1 ≤ N < len(x)`, `resamp(x, N, 'lin')` returns a
length-`N` sequence whose bin `i` is the arithmetic mean of the source
slice `[floor(i*len/N), floor((i+1)*len/N))` (the forced final boundary
equals `len(x)`); `resamp([0..9], 5, 'lin') = [0.5, 2.5, 4.5, 6.5, 8.5]`.
For `N = 0` the code raises `ZeroDivisionError` instead. -/
theorem resamp_lin_bins :
    (∀ (x : List ℝ) (N : ℕ), 1 ≤ N → N < x.length →
      ∃ r : List ℝ, resamp x N "lin" = .ok r ∧ r.length = N ∧
        ∀ i, i < N →
          r.getD i 0 =
            (slice x ⌊(i * x.length : ℚ) / (N : ℚ)⌋₊
              ⌊((i + 1) * x.length : ℚ) / (N : ℚ)⌋₊).sum /
            ((slice x ⌊(i * x.length : ℚ) / (N : ℚ)⌋₊
              ⌊((i + 1) * x.length : ℚ) / (N : ℚ)⌋₊).length : ℝ)) ∧
    resamp [0, 1, 2, 3, 4, 5, 6, 7, 8, 9] 5 "lin" =
      .ok [1/2, 5/2, 9/2, 13/2, 17/2] := by
  constructor
  · intro x N hN hlen
    refine ⟨linResultY x N, ?_, ?_, ?_⟩
    · rw [resamp, if_neg (by omega), if_pos rfl, if_neg (by omega)]
    · simp [linResultY]
    · intro i hi
      rw [linResultY, getD_map_range hi, npAverage,
        linIndex_eq_floor _ _ _ hN (le_of_lt hi), linIndex_eq_floor _ _ _ hN (by omega)]
      norm_cast
  · have h10 : ([0, 1, 2, 3, 4, 5, 6, 7, 8, 9] : List ℝ).length = 10 := rfl
    rw [resamp, if_neg (by rw [h10]; omega), if_pos rfl, if_neg (by omega)]
    rw [linResultY, h10]
    have hidx : ∀ i, i ≤ 5 → linIndex 10 5 i = 2 * i := by
      intro i hi
      rw [linIndex_eq_floor 10 5 i (by omega) hi]
      push_cast
      rw [show ((i : ℚ) * 10) / 5 = 2 * i by ring]
      rw [show ((2 : ℚ) * i) = ((2 * i : ℕ) : ℚ) by push_cast; ring, Nat.floor_natCast]
    rw [show List.range 5 = [0, 1, 2, 3, 4] by rfl]
    simp only [List.map_cons, List.map_nil]
    rw [hidx 0 (by omega), hidx 1 (by omega), hidx 2 (by omega), hidx 3 (by omega),
      hidx 4 (by omega), hidx 5 (by omega)]
    rw [show slice [0, 1, 2, 3, 4, 5, 6, 7, 8, 9] (2 * 0) (2 * 1) = [0, 1] from rfl,
      show slice [0, 1, 2, 3, 4, 5, 6, 7, 8, 9] (2 * 1) (2 * 2) = [2, 3] from rfl,
      show slice [0, 1, 2, 3, 4, 5, 6, 7, 8, 9] (2 * 2) (2 * 3) = [4, 5] from rfl,
      show slice [0, 1, 2, 3, 4, 5, 6, 7, 8, 9] (2 * 3) (2 * 4) = [6, 7] from rfl,
      show slice [0, 1, 2, 3, 4, 5, 6, 7, 8, 9] (2 * 4) (2 * 5) = [8, 9] from rfl]
    rw [npAverage, npAverage, npAverage, npAverage, npAverage]
    norm_num

/-- C4 counterexample: at target length `N = 0 < len(x)` the code raises
`ZeroDivisionError` (`dn = 1.*len(x)/0`) instead of returning a
length-0 sequence. -/
theorem resamp_lin_N_zero_counterexample :
    0 < [(0 : ℝ)].length ∧ resamp [(0 : ℝ)] 0 "lin" = .error .zeroDivision :=
  ⟨by norm_num, rfl⟩

/-- C4 witness: `resamp([0,1,2], 2, 'lin')` falls under the amended
theorem. -/
theorem resamp_lin_bins_witness :
    (1 ≤ 2 ∧ 2 < ([0, 1, 2] : List ℝ).length) ∧
    (∃ r : List ℝ, resamp [(0 : ℝ), 1, 2] 2 "lin" = .ok r ∧ r.length = 2 ∧
      ∀ i, i < 2 →
        r.getD i 0 =
          (slice [(0 : ℝ), 1, 2] ⌊(i * ([(0 : ℝ), 1, 2]).length : ℚ) / (2 : ℚ)⌋₊
            ⌊((i + 1) * ([(0 : ℝ), 1, 2]).length : ℚ) / (2 : ℚ)⌋₊).sum /
          ((slice [(0 : ℝ), 1, 2] ⌊(i * ([(0 : ℝ), 1, 2]).length : ℚ) / (2 : ℚ)⌋₊
            ⌊((i + 1) * ([(0 : ℝ), 1, 2]).length : ℚ) / (2 : ℚ)⌋₊).length : ℝ)) :=
  ⟨⟨by norm_num, by norm_num⟩, resamp_lin_bins.1 [0, 1, 2] 2 (by norm_num) (by norm_num)⟩

/-- C7 (amended): mismatched lengths always fail with `InvalidInput`; an
unrecognized mode fails the same way whenever resampling actually occurs
(`N < len(y)`); `'lin'` mode at `N = 0` (with nonempty inputs) fails
with the Python `ZeroDivisionError`; `'log'` mode fails with the Python
`IndexError` of `log(x[1])` when the x-axis is a single non-positive
value (reachable only at `N = 0`); and these are exactly the error
conditions — every call outside them succeeds. -/
theorem resample_error_policy :
    (∀ (x y : List ℝ) (N : ℕ) (type : String), x.length ≠ y.length →
      resample x y N type = .error .invalidInput) ∧
    (∀ (x y : List ℝ) (N : ℕ) (type : String), x.length = y.length →
      N < y.length → type ≠ "lin" → type ≠ "log" →
      resample x y N type = .error .invalidInput) ∧
    (∀ (x y : List ℝ), x.length = y.length →
      0 < y.length → resample x y 0 "lin" = .error .zeroDivision) ∧
    (∀ (x y : List ℝ), x.length = y.length → 0 < y.length →
      x.length < 2 → x.headI ≤ 0 → resample x y 0 "log" = .error .indexError) ∧
    (∀ (x y : List ℝ) (N : ℕ) (type : String), x.length = y.length →
      ¬ (N < y.length ∧ type ≠ "lin" ∧ type ≠ "log") →
      ¬ (type = "lin" ∧ N = 0 ∧ N < y.length) →
      ¬ (type = "log" ∧ N < y.length ∧ x.length < 2 ∧ x.headI ≤ 0) →
      ∃ p, resample x y N type = .ok p) := by
  refine ⟨?_, ?_, ?_, ?_, ?_⟩
  · intro x y N ty h
    rw [resample, if_pos h]
  · intro x y N ty hxy hN hlin hlog
    rw [resample, if_neg (by omega), if_neg (by omega), if_neg hlin, if_neg hlog]
  · intro x y hxy hy
    rw [resample, if_neg (by omega), if_neg (by omega), if_pos rfl, if_pos rfl]
  · intro x y hxy hy hx2 hx0
    rw [resample, if_neg (by omega), if_neg (by omega), if_neg (by decide),
      if_pos rfl, if_pos ⟨not_lt.mpr hx0, hx2⟩]
  · intro x y N ty hxy hmode hlin hlog
    rw [resample, if_neg (by omega)]
    by_cases hle : y.length ≤ N
    · rw [if_pos hle]
      exact ⟨(x, y), rfl⟩
    · rw [if_neg hle]
      have hN : N < y.length := by omega
      by_cases hl : ty = "lin"
      · rw [if_pos hl, if_neg (fun h0 => hlin ⟨hl, h0, hN⟩)]
        exact ⟨_, rfl⟩
      · by_cases hg : ty = "log"
        · rw [if_neg hl, if_pos hg]
          have hcond : ¬ (¬ x.headI > 0 ∧ x.length < 2) := by
            rintro ⟨h1, h2⟩
            exact hlog ⟨hg, hN, h2, not_lt.mp h1⟩
          rw [if_neg hcond]
          exact ⟨_, rfl⟩
        · exact absurd ⟨hN, hl, hg⟩ hmode

/-- C7 counterexample: with equal-length inputs and a recognized mode,
target length 0 still fails — `'lin'` with `ZeroDivisionError` and
`'log'` (single non-positive x value, `log(x[1])`) with `IndexError` —
so mismatched lengths and unrecognized mode are not the only error
conditions. -/
theorem resample_third_error_counterexample :
    [(0 : ℝ)].length = [(0 : ℝ)].length ∧
    resample [(0 : ℝ)] [(0 : ℝ)] 0 "lin" = .error .zeroDivision ∧
    resample [(0 : ℝ)] [(0 : ℝ)] 0 "log" = .error .indexError := by
  refine ⟨rfl, rfl, ?_⟩
  rw [resample, if_neg (by norm_num), if_neg (by norm_num), if_neg (by decide),
    if_pos rfl, if_pos ⟨lt_irrefl 0, by norm_num⟩]

/-- C7 witness: a mismatched-length call fails with `InvalidInput`. -/
theorem resample_error_policy_witness :
    [(0 : ℝ), 1].length ≠ [(0 : ℝ)].length ∧
    resample [(0 : ℝ), 1] [(0 : ℝ)] 5 "lin" = .error .invalidInput :=
  ⟨by norm_num, resample_error_policy.1 [0, 1] [0] 5 "lin" (by norm_num)⟩

/-- C6 (amended): `halfwidth` fails with `InvalidInput` exactly when
`x = min(maxpos, N/2 - 1 - maxpos) ≤ 0` (at `x = 0` the source prints
its error and then crashes on `int(log(0))`; `x < 0` is reachable for
odd `N` and also crashes); for `x ≥ 1` it returns the largest power of
two not exceeding `x`. -/
theorem halfwidth_spec_amended (spec : List ℂ) :
    (hwX spec ≤ 0 → halfwidth spec = .error .invalidInput) ∧
    (1 ≤ hwX spec → ∃ k : ℕ, halfwidth spec = .ok (2 ^ k) ∧
      (2 ^ k : ℤ) ≤ hwX spec ∧ hwX spec < 2 ^ (k + 1)) := by
  constructor
  · intro h
    rw [halfwidth, if_pos h]
  · intro hx
    have hx0 : 0 ≤ hwX spec := by omega
    set m : ℕ := (hwX spec).toNat with hmdef
    have hxm : hwX spec = (m : ℤ) := (Int.toNat_of_nonneg hx0).symm
    have hm1 : 1 ≤ m := by omega
    have hcast : ((hwX spec : ℤ) : ℝ) = ((m : ℕ) : ℝ) := by
      rw [hxm]
      push_cast
      rfl
    have hfloor : ⌊Real.logb 2 ((hwX spec : ℤ) : ℝ)⌋ = (Nat.log 2 m : ℤ) := by
      rw [hcast, show ((2 : ℝ)) = ((2 : ℕ) : ℝ) by norm_num,
        Real.floor_logb_natCast (by positivity), Int.log_natCast]
    refine ⟨Nat.log 2 m, ?_, ?_, ?_⟩
    · rw [halfwidth, if_neg (by omega), hfloor]
      norm_num
    · rw [hxm]
      exact_mod_cast Nat.pow_log_le_self 2 (by omega)
    · rw [hxm]
      exact_mod_cast Nat.lt_pow_succ_log_self (by norm_num) m

/-- C6 counterexample: for the length-5 spectrum `[0,0,1,0,0]` the peak
of the searched half sits at index 2, so `x = min(2, 5/2-1-2) = -1`:
`x` is nonzero, yet the function fails instead of returning a power of
two (there is no power of two `≤ -1`). -/
theorem halfwidth_negative_x_counterexample :
    hwX [0, 0, 1, 0, 0] = -1 ∧
    halfwidth [0, 0, 1, 0, 0] = .error .invalidInput := by
  have habs0 : Complex.abs 0 = 0 := map_zero _
  have habs1 : Complex.abs 1 = 1 := map_one _
  have htake : ([0, 0, 1, 0, 0] : List ℂ).take
      ((([0, 0, 1, 0, 0] : List ℂ).length + 1) / 2) = [0, 0, 1] := rfl
  have hpos : hwMaxpos [0, 0, 1, 0, 0] = 2 := by
    rw [hwMaxpos, htake, argmaxAbs]
    simp only [argmaxAbsAux, habs0, habs1]
    norm_num
  have hx : hwX [0, 0, 1, 0, 0] = -1 := by
    rw [hwX, hpos]
    norm_num
  exact ⟨hx, by rw [halfwidth, if_pos (by rw [hx]; norm_num)]⟩

/-- C6 witness: a length-8 spectrum peaking at bin 1 gives `x = 1` and
halfwidth 1. -/
theorem halfwidth_spec_amended_witness :
    1 ≤ hwX [0, 1, 0, 0, 0, 0, 0, 0] ∧
    ∃ k : ℕ, halfwidth [0, 1, 0, 0, 0, 0, 0, 0] = .ok (2 ^ k) ∧
      (2 ^ k : ℤ) ≤ hwX [0, 1, 0, 0, 0, 0, 0, 0] ∧
      hwX [0, 1, 0, 0, 0, 0, 0, 0] < 2 ^ (k + 1) := by
  have habs0 : Complex.abs 0 = 0 := map_zero _
  have habs1 : Complex.abs 1 = 1 := map_one _
  have htake : ([0, 1, 0, 0, 0, 0, 0, 0] : List ℂ).take
      ((([0, 1, 0, 0, 0, 0, 0, 0] : List ℂ).length + 1) / 2) = [0, 1, 0, 0] := rfl
  have hpos : hwMaxpos [0, 1, 0, 0, 0, 0, 0, 0] = 1 := by
    rw [hwMaxpos, htake, argmaxAbs]
    simp only [argmaxAbsAux, habs0, habs1]
    norm_num
  have hx : 1 ≤ hwX [0, 1, 0, 0, 0, 0, 0, 0] := by
    rw [hwX, hpos]
    norm_num
  exact ⟨hx, (halfwidth_spec_amended [0, 1, 0, 0, 0, 0, 0, 0]).2 hx⟩

/-- Python `%` with modulus `2*pi` lands in `[0, 2*pi)`. -/
lemma pmod2pi_mem (x : ℝ) : 0 ≤ pmod2pi x ∧ pmod2pi x < 2 * Real.pi := by
  have hpi : 0 < 2 * Real.pi := by positivity
  have h1 : (⌊x / (2 * Real.pi)⌋ : ℝ) ≤ x / (2 * Real.pi) := Int.floor_le _
  have h2 : x / (2 * Real.pi) < ⌊x / (2 * Real.pi)⌋ + 1 := Int.lt_floor_add_one _
  have h1' : (⌊x / (2 * Real.pi)⌋ : ℝ) * (2 * Real.pi) ≤ x := (le_div_iff₀ hpi).mp h1
  have h2' : x < ((⌊x / (2 * Real.pi)⌋ : ℝ) + 1) * (2 * Real.pi) := (div_lt_iff₀ hpi).mp h2
  rw [pmod2pi]
  constructor
  · nlinarith
  · nlinarith

/-- Each value written by the unwrapping scan differs from its
predecessor by an amount in `(-pi, pi]`. -/
lemma unwrapStep_mem (prev next : ℝ) :
    unwrapStep prev next ∈ Set.Ioc (-Real.pi) Real.pi := by
  have hpi : 0 < Real.pi := Real.pi_pos
  obtain ⟨h0, h2⟩ := pmod2pi_mem (next - prev)
  rw [unwrapStep]
  by_cases h : pmod2pi (next - prev) > Real.pi
  · rw [if_pos h]
    constructor
    · linarith
    · linarith
  · rw [if_neg h]
    constructor
    · linarith
    · exact not_lt.mp h

lemma mpcGo_diff : ∀ (l : List ℝ) (prev : ℝ) (i : ℕ), i < l.length →
    ((prev :: mpcGo prev l).getD (i + 1) 0 - (prev :: mpcGo prev l).getD i 0)
      ∈ Set.Ioc (-Real.pi) Real.pi := by
  intro l
  induction l with
  | nil =>
    intro prev i h
    simp at h
  | cons b rest ih =>
    intro prev i h
    cases i with
    | zero =>
      simp only [mpcGo, List.getD_cons_succ, List.getD_cons_zero]
      have hmem := unwrapStep_mem prev b
      have heq : prev + unwrapStep prev b - prev = unwrapStep prev b := by ring
      rw [heq]
      exact hmem
    | succ j =>
      simp only [mpcGo, List.getD_cons_succ]
      exact ih (prev + unwrapStep prev b) j (by simpa using h)

/-- `make_phase_continuous` leaves `[0, 3, 6]` unchanged: both raw
differences equal 3, which is below `pi`, so no remapping fires. -/
lemma mpc_036 : make_phase_continuous [0, 3, 6] = [0, 3, 6] := by
  have hpi3 : (3 : ℝ) < Real.pi := Real.pi_gt_three
  have hmod : pmod2pi 3 = 3 := by
    have hfl : ⌊(3 : ℝ) / (2 * Real.pi)⌋ = 0 := by
      rw [Int.floor_eq_zero_iff]
      constructor
      · positivity
      · rw [div_lt_one (by positivity)]
        linarith
    rw [pmod2pi, hfl]
    norm_num
  have hstep : ∀ a b : ℝ, b - a = 3 → unwrapStep a b = 3 := by
    intro a b hab
    rw [unwrapStep, hab, hmod, if_neg (not_lt.mpr (le_of_lt hpi3))]
  have h1 : unwrapStep (0 : ℝ) 3 = 3 := hstep 0 3 (by norm_num)
  simp only [make_phase_continuous, mpcGo, h1]
  norm_num
  rw [hstep 3 6 (by norm_num)]
  norm_num

/-- C8 (amended): after `make_phase_continuous` every consecutive
difference lies in `(-pi, pi]`; the input `[0, 3, 6]`, whose raw
differences are `3 < pi` already, is returned unchanged (there is no
jump greater than `pi` to remove). -/
theorem make_phase_continuous_diffs :
    (∀ (phi : List ℝ) (i : ℕ), i + 1 < phi.length →
      ((make_phase_continuous phi).getD (i + 1) 0 -
        (make_phase_continuous phi).getD i 0) ∈ Set.Ioc (-Real.pi) Real.pi) ∧
    make_phase_continuous [0, 3, 6] = [0, 3, 6] := by
  constructor
  · intro phi i h
    cases phi with
    | nil => simp at h
    | cons a rest =>
      have h' : i < rest.length := by simpa using h
      simpa [make_phase_continuous] using mpcGo_diff rest a i h'
  · exact mpc_036

/-- C8 counterexample: the claim's concrete instance is mis-stated —
`[0, 3, 6]` contains no jump greater than `pi` (since `3 ≤ pi`), and
`make_phase_continuous` returns it unchanged rather than removing a
jump. -/
theorem mpc_no_jump_counterexample :
    make_phase_continuous [0, 3, 6] = [0, 3, 6] ∧ (3 : ℝ) ≤ Real.pi :=
  ⟨mpc_036, le_of_lt Real.pi_gt_three⟩

/-- C8 witness: the first consecutive difference of the unwrapped
`[0, 3, 6]` lies in `(-pi, pi]`. -/
theorem make_phase_continuous_diffs_witness :
    0 + 1 < ([0, 3, 6] : List ℝ).length ∧
    ((make_phase_continuous [0, 3, 6]).getD (0 + 1) 0 -
      (make_phase_continuous [0, 3, 6]).getD 0 0) ∈ Set.Ioc (-Real.pi) Real.pi :=
  ⟨by norm_num, make_phase_continuous_diffs.1 [0, 3, 6] 0 (by norm_num)⟩

/-- Orthogonality of the discrete Fourier kernel: the sum of the N-th
roots of unity at frequency `d` is `N` when `N ∣ d` and `0` otherwise. -/
lemma sum_exp_unit (N : ℕ) (hN : 0 < N) (d : ℤ) :
    ∑ k : Fin N, Complex.exp (2 * Real.pi * Complex.I * d * (k : ℕ) / (N : ℂ)) =
      if (N : ℤ) ∣ d then (N : ℂ) else 0 := by
  have hNC : (N : ℂ) ≠ 0 := Nat.cast_ne_zero.mpr (by omega)
  set z : ℂ := Complex.exp (2 * Real.pi * Complex.I * d / N) with hz
  have hzk : ∀ k : ℕ, Complex.exp (2 * Real.pi * Complex.I * d * (k : ℕ) / (N : ℂ)) = z ^ k := by
    intro k
    rw [hz, ← Complex.exp_nat_mul]
    congr 1
    ring
  have hsum : ∑ k : Fin N, Complex.exp (2 * Real.pi * Complex.I * d * (k : ℕ) / (N : ℂ)) =
      ∑ k ∈ Finset.range N, z ^ k := by
    rw [← Fin.sum_univ_eq_sum_range (fun k => z ^ k) N]
    exact Finset.sum_congr rfl fun k _ => hzk k
  rw [hsum]
  by_cases hdvd : (N : ℤ) ∣ d
  · obtain ⟨e, he⟩ := hdvd
    have hz1 : z = 1 := by
      rw [hz, he]
      have harg : (2 * (Real.pi : ℂ) * Complex.I * (((N : ℤ) * e : ℤ) : ℂ) / (N : ℂ)) =
          ((e : ℤ) : ℂ) * (2 * (Real.pi : ℂ) * Complex.I) := by
        push_cast
        field_simp
        ring
      calc Complex.exp (2 * (Real.pi : ℂ) * Complex.I * (((N : ℤ) * e : ℤ) : ℂ) / N)
          = Complex.exp (((e : ℤ) : ℂ) * (2 * (Real.pi : ℂ) * Complex.I)) := by rw [harg]
        _ = 1 := Complex.exp_int_mul_two_pi_mul_I e
    rw [if_pos ⟨e, he⟩, hz1]
    simp
  · rw [if_neg hdvd]
    have hz1 : z ≠ 1 := by
      intro hcon
      rw [hz] at hcon
      obtain ⟨n, hn⟩ := Complex.exp_eq_one_iff.mp hcon
      apply hdvd
      have h2pii : (2 * (Real.pi : ℂ) * Complex.I) ≠ 0 := by
        have hpi : ((Real.pi : ℂ)) ≠ 0 := Complex.ofReal_ne_zero.mpr Real.pi_ne_zero
        have h2 : (2 : ℂ) ≠ 0 := two_ne_zero
        exact mul_ne_zero (mul_ne_zero h2 hpi) Complex.I_ne_zero
      have hd : ((d : ℤ) : ℂ) = ((n * N : ℤ) : ℂ) := by
        field_simp at hn
        push_cast
        have hn' : 2 * (Real.pi : ℂ) * Complex.I * d = 2 * (Real.pi : ℂ) * Complex.I * (n * N) := by
          rw [hn]
          ring
        exact mul_left_cancel₀ h2pii hn'
      have hdn : d = n * N := by exact_mod_cast hd
      exact ⟨n, by rw [hdn, mul_comm]⟩
    rw [geom_sum_eq hz1]
    have hzN : z ^ N = 1 := by
      rw [hz, ← Complex.exp_nat_mul]
      have harg : (N : ℂ) * (2 * (Real.pi : ℂ) * Complex.I * d / N) =
          ((d : ℤ) : ℂ) * (2 * (Real.pi : ℂ) * Complex.I) := by
        field_simp
        ring
      rw [harg]
      exact Complex.exp_int_mul_two_pi_mul_I d
    rw [hzN]
    simp

/-- C1: for every length `N ≥ 1` and every complex sequence `x`,
`ispectrum (spectrum x) = x` exactly — the Fourier-series round-trip
law. -/
theorem ispectrum_spectrum_roundtrip (N : ℕ) (hN : 0 < N) (x : Fin N → ℂ) :
    ispectrum N (spectrum N x) = x := by
  funext j
  have hNC : (N : ℂ) ≠ 0 := Nat.cast_ne_zero.mpr (by omega)
  simp only [ispectrum, ifft, spectrum, fft]
  rw [div_mul_cancel₀ _ hNC]
  have hstep1 : ∀ k : Fin N,
      ((∑ m : Fin N, x m *
          Complex.exp (-(2 * Real.pi * Complex.I) * (m : ℕ) * (k : ℕ) / (N : ℂ))) / (N : ℂ)) *
        Complex.exp (2 * Real.pi * Complex.I * (j : ℕ) * (k : ℕ) / (N : ℂ)) =
      ∑ m : Fin N, (x m / N) *
        (Complex.exp (-(2 * Real.pi * Complex.I) * (m : ℕ) * (k : ℕ) / (N : ℂ)) *
          Complex.exp (2 * Real.pi * Complex.I * (j : ℕ) * (k : ℕ) / (N : ℂ))) := by
    intro k
    rw [div_mul_eq_mul_div, Finset.sum_mul, Finset.sum_div]
    exact Finset.sum_congr rfl fun m _ => by ring
  rw [Finset.sum_congr rfl fun k _ => hstep1 k, Finset.sum_comm]
  have hstep2 : ∀ m : Fin N,
      ∑ k : Fin N, (x m / N) *
        (Complex.exp (-(2 * Real.pi * Complex.I) * (m : ℕ) * (k : ℕ) / (N : ℂ)) *
          Complex.exp (2 * Real.pi * Complex.I * (j : ℕ) * (k : ℕ) / (N : ℂ))) =
      (x m / N) * (if (N : ℤ) ∣ ((j : ℕ) - (m : ℕ) : ℤ) then (N : ℂ) else 0) := by
    intro m
    rw [← Finset.mul_sum]
    congr 1
    rw [← sum_exp_unit N hN ((j : ℕ) - (m : ℕ) : ℤ)]
    refine Finset.sum_congr rfl fun k _ => ?_
    rw [← Complex.exp_add]
    congr 1
    push_cast
    ring
  rw [Finset.sum_congr rfl fun m _ => hstep2 m]
  have hiff : ∀ m : Fin N, ((N : ℤ) ∣ ((j : ℕ) - (m : ℕ) : ℤ)) ↔ m = j := by
    intro m
    constructor
    · intro hdvd
      have hj : ((j : ℕ) : ℤ) < N := by exact_mod_cast j.isLt
      have hm : ((m : ℕ) : ℤ) < N := by exact_mod_cast m.isLt
      have habs : |((j : ℕ) - (m : ℕ) : ℤ)| < N := by
        rw [abs_lt]
        omega
      have hzero := Int.eq_zero_of_abs_lt_dvd hdvd habs
      have hmj : ((m : ℕ) : ℤ) = ((j : ℕ) : ℤ) := by omega
      exact Fin.ext (by exact_mod_cast hmj)
    · rintro rfl
      simp
  calc ∑ m : Fin N, (x m / N) * (if (N : ℤ) ∣ ((j : ℕ) - (m : ℕ) : ℤ) then (N : ℂ) else 0)
      = ∑ m : Fin N, (if m = j then (x m / N) * N else 0) := by
        refine Finset.sum_congr rfl fun m _ => ?_
        by_cases h : m = j
        · rw [if_pos ((hiff m).mpr h), if_pos h]
        · rw [if_neg (fun hc => h ((hiff m).mp hc)), if_neg h, mul_zero]
    _ = (x j / N) * N := by
        rw [Fintype.sum_ite_eq' j (fun m => (x m / N) * (N : ℂ))]
    _ = x j := div_mul_cancel₀ _ hNC

/-- C1 witness: the round-trip at the concrete length-1 signal `[1]`. -/
theorem ispectrum_spectrum_roundtrip_witness :
    0 < 1 ∧ ispectrum 1 (spectrum 1 (fun _ : Fin 1 => (1 : ℂ))) = fun _ => (1 : ℂ) :=
  ⟨Nat.one_pos, ispectrum_spectrum_roundtrip 1 Nat.one_pos (fun _ => 1)⟩

end NoiseTools
